import Mathlib

/-!
Verification development for the sharded word-frequency pipeline in
`oscarlm/genlm.py` (functions `count_words`, `aggregate_counters`, `main`).

The embedding models:
* Python `collections.Counter` objects as insertion-ordered association
  lists `List (K × Nat)` (Python dicts preserve insertion order);
* the input file as a byte sequence `List Char`;
* the worker's `readlines`-based shard loop as an explicit step function
  plus a fuelled driver (the loop has no a-priori termination bound);
* the aggregator as a fold over the arriving partial-count batches.

Python values that can appear as counter keys are either decoded strings
or tuples `(key, count)` (the latter arise in `aggregate_counters`, line 75,
where `Counter(most_common(...))` counts the *pairs* as elements), so the
aggregator key type `PyKey` is an inductive closed under pairing.
-/

/-! ### Counter model (`collections.Counter`) -/

/-- A Python `Counter`/dict: insertion-ordered association list. -/
abbrev PyCounter (K : Type) := List (K × Nat)

/-- `c[k]` with default 0 (`Counter.__getitem__`). -/
def cget {K : Type} [DecidableEq K] (c : PyCounter K) (k : K) : Nat :=
  match c with
  | [] => 0
  | e :: rest => if e.1 = k then e.2 else cget rest k

/-- `k in c` (dict key membership). -/
def hasKey {K : Type} [DecidableEq K] (c : PyCounter K) (k : K) : Bool :=
  match c with
  | [] => false
  | e :: rest => decide (e.1 = k) || hasKey rest k

/-- `counter[word] += 1` (`count_words`, line 49): update in place if the key
is present, else append a fresh entry with count 1. -/
def counter_incr {K : Type} [DecidableEq K] (c : PyCounter K) (k : K) : PyCounter K :=
  match c with
  | [] => [(k, 1)]
  | e :: rest => if e.1 = k then (e.1, e.2 + 1) :: rest else e :: counter_incr rest k

/-- `overall_counter += counter` (`aggregate_counters`, line 72):
`Counter.__iadd__` adds the other counter's count to every existing key
(keeping insertion order), appends the other counter's new keys in its
iteration order, then drops non-positive entries (`_keep_positive`). -/
def counter_iadd {K : Type} [DecidableEq K] (c d : PyCounter K) : PyCounter K :=
  ((c.map fun e => (e.1, e.2 + cget d e.1)) ++
      d.filter (fun e => ! hasKey c e.1)).filter
    (fun e => decide (0 < e.2))

/-- All stored counts are positive (true of every counter the program builds). -/
def entriesPos {K : Type} (c : PyCounter K) : Prop := ∀ e ∈ c, 0 < e.2

/-- The keys are pairwise distinct (true of every Python dict). -/
def NoDupKeys {K : Type} (c : PyCounter K) : Prop := (c.map Prod.fst).Nodup

instance {K : Type} (c : PyCounter K) : Decidable (entriesPos c) :=
  inferInstanceAs (Decidable (∀ e ∈ c, 0 < e.2))

instance {K : Type} [DecidableEq K] (c : PyCounter K) : Decidable (NoDupKeys c) :=
  inferInstanceAs (Decidable (c.map Prod.fst).Nodup)

/-- Summing a list of partial-count batches into one table, the way the
aggregator does in the absence of pruning. -/
def foldTotals {K : Type} [DecidableEq K] (bs : List (PyCounter K)) : PyCounter K :=
  bs.foldl counter_iadd []

/-- Comparison used by `Counter.most_common`: sort by count, largest first. -/
def countGE {K : Type} (a b : K × Nat) : Prop := b.2 ≤ a.2

instance {K : Type} : DecidableRel (@countGE K) := fun a b => Nat.decLe b.2 a.2

instance {K : Type} : IsTotal (K × Nat) countGE := ⟨fun a b => Nat.le_total b.2 a.2⟩

instance {K : Type} : IsTrans (K × Nat) countGE := ⟨fun _ _ _ h1 h2 => Nat.le_trans h2 h1⟩

/-- `Counter.most_common(n)`: the entries sorted by count descending
(stably, ties keeping insertion order, as `heapq.nlargest` does), truncated
to the first `n`. -/
def most_common {K : Type} [DecidableEq K] (c : PyCounter K) (n : Nat) : List (K × Nat) :=
  (List.insertionSort countGE c).take n

/-- `Counter(iterable)` on a non-mapping iterable: counts the *elements* of
the iterable (`collections._count_elements`). -/
def counterFromList {K : Type} [DecidableEq K] (l : List K) : PyCounter K :=
  l.foldl counter_incr []

/-! ### Python keys: strings and tuples -/

/-- A Python value usable as a counter key in this program: a decoded string,
or a `(key, count)` tuple (created by `Counter(most_common(...))` pruning). -/
inductive PyKey where
  | str : List Char → PyKey
  | pair : PyKey → Nat → PyKey
deriving DecidableEq

/-- `repr` of a key as Python renders it inside a tuple. -/
def pyRepr : PyKey → List Char
  | PyKey.str s => '\'' :: (s ++ ['\''])
  | PyKey.pair k n => '(' :: (pyRepr k ++ (',' :: ' ' :: Nat.toDigits 10 n ++ [')']))

/-- `str(word)` as used when writing the vocabulary file (line 68):
a plain string prints itself, a tuple prints in `repr` form. -/
def pyStr : PyKey → List Char
  | PyKey.str s => s
  | PyKey.pair k n => pyRepr (PyKey.pair k n)

/-! ### Aggregator (`aggregate_counters`) -/

/-- One `PartialCount` processed by `aggregate_counters` (lines 71–75):
merge the batch into the table; if the number of distinct keys now exceeds
`prune_factor * vocabulary_size`, replace the table by
`Counter(overall_counter.most_common(vocabulary_size))` — which, `most_common`
returning a list of `(word, count)` tuples, counts every tuple once. -/
def aggregate_counters_step (vocabulary_size prune_factor : Nat)
    (tbl batch : PyCounter PyKey) : PyCounter PyKey :=
  let merged := counter_iadd tbl batch
  if prune_factor * vocabulary_size < merged.length then
    counterFromList ((most_common merged vocabulary_size).map fun e => PyKey.pair e.1 e.2)
  else merged

/-- The aggregator's table after consuming a list of batches in arrival
order, starting from the empty `Counter()` (line 62). -/
def aggregate_counters_run (vocabulary_size prune_factor : Nat)
    (batches : List (PyCounter PyKey)) : PyCounter PyKey :=
  batches.foldl (aggregate_counters_step vocabulary_size prune_factor) []

/-- The lines written to `vocabulary.txt` on the stop token (lines 67–68):
`str(word)` for each of the top `vocabulary_size` entries. -/
def vocabulary_lines (vocabulary_size prune_factor : Nat)
    (batches : List (PyCounter PyKey)) : List (List Char) :=
  (most_common (aggregate_counters_run vocabulary_size prune_factor batches)
      vocabulary_size).map
    fun e => pyStr e.1

example : cget (counter_iadd [((PyKey.str ['a']), 2)] [((PyKey.str ['a']), 3)])
    (PyKey.str ['a']) = 5 := by decide

example : most_common [((PyKey.str ['a']), 1), ((PyKey.str ['b']), 4)] 1
    = [((PyKey.str ['b']), 4)] := by decide

/-! ### Worker (`count_words`) -/

/-- The flush cap on distinct keys in a worker's local counter (line 17). -/
def MAX_KEYS : Nat := 100000

/-- Split off the first line of a byte sequence: everything up to and
including the first newline, or the whole sequence if it has none. -/
def splitLine : List Char → List Char × List Char
  | [] => ([], [])
  | c :: rest =>
    if c = '\n' then ([c], rest)
    else
      let p := splitLine rest
      (c :: p.1, p.2)

/-- One line read at byte offset `pos`: the line (newline included, as
Python's binary `readline` returns it) and the new file position. -/
def readLine (file : List Char) (pos : Nat) : List Char × Nat :=
  let l := (splitLine (file.drop pos)).1
  (l, pos + l.length)

/-- `file.readlines(hint)` (`io.IOBase.readlines`): reads whole lines,
stopping after the line that brings the total bytes read by this call to
`hint` or more, or at end of file.  The structural `fuel` argument only
bounds the number of lines; `readlinesHint` below supplies a fuel that can
never be exhausted, since every line read consumes at least one byte. -/
def readlinesGo (file : List Char) (fuel pos hint : Nat) : List (List Char) × Nat :=
  match fuel with
  | 0 => ([], pos)
  | fuel + 1 =>
    if pos < file.length then
      let r := readLine file pos
      if hint ≤ r.1.length then ([r.1], r.2)
      else
        let rest := readlinesGo file fuel r.2 (hint - r.1.length)
        (r.1 :: rest.1, rest.2)
    else ([], pos)

/-- `unprepared_file.readlines(hint)` starting at position `pos`, returning
the lines and the resulting `tell()` value. -/
def readlinesHint (file : List Char) (pos hint : Nat) : List (List Char) × Nat :=
  readlinesGo file file.length pos hint

/-- Python's `str.split()` whitespace test (the characters occurring in
text files; `\x0b`/`\x0c` behave identically). -/
def isPySpace (c : Char) : Bool :=
  c = ' ' ∨ c = '\n' ∨ c = '\t' ∨ c = '\r'

/-- Helper for `splitWords`: accumulates the current (reversed) word. -/
def splitWordsGo : List Char → List Char → List (List Char)
  | [], acc => if acc.isEmpty then [] else [acc.reverse]
  | c :: rest, acc =>
    if isPySpace c then
      if acc.isEmpty then splitWordsGo rest []
      else acc.reverse :: splitWordsGo rest []
    else splitWordsGo rest (c :: acc)

/-- `line.split()` (line 48): split on whitespace runs, no empty words. -/
def splitWords (l : List Char) : List (List Char) := splitWordsGo l []

/-- `itertools.chain.from_iterable(map(lambda l: LANG.clean(l.decode()), lines))`
(line 45).  The normalizer `clean` is the external per-language collaborator;
the core consumes it as a function from a raw line to zero or more cleaned
lines. -/
def cleanLines (clean : List Char → List (List Char)) (lines : List (List Char)) :
    List (List Char) :=
  (lines.map clean).flatten

/-- Count the words of one cleaned line into the local counter (lines 47–49). -/
def countLine (c : PyCounter (List Char)) (line : List Char) : PyCounter (List Char) :=
  (splitWords line).foldl counter_incr c

/-- Count all cleaned lines of a block into the local counter. -/
def countLines (c : PyCounter (List Char)) (lines : List (List Char)) :
    PyCounter (List Char) :=
  lines.foldl countLine c

/-- `math.ceil(os.path.getsize(unprepared_txt) / ARGS.workers)` (line 31) —
the per-shard byte-range size, confusingly named `block_size` in
`count_words` (distinct from `ARGS.block_size`). -/
def shard_block_size (total workers : Nat) : Nat := (total + workers - 1) / workers

/-- The static inputs of one `count_words` worker. -/
structure WorkerParams where
  file : List Char
  index : Nat
  workers : Nat
  args_block_size : Nat
  clean : List Char → List (List Char)

/-- `start = index * block_size` (line 32). -/
def byte_start (P : WorkerParams) : Nat :=
  P.index * shard_block_size P.file.length P.workers

/-- `end = start + block_size` (line 33).  Note: not clamped to the file size. -/
def byte_end (P : WorkerParams) : Nat :=
  byte_start P + shard_block_size P.file.length P.workers

/-- The mutable state of the `count_words` loop: the file position `pos`,
the position `old_pos` of the last flush, the local counter, the cleaned
lines written to the partial file so far, and the `(counter, bytes)`
batches put on the queue so far. -/
structure WState where
  pos : Nat
  old_pos : Nat
  counter : PyCounter (List Char)
  out : List (List Char)
  sent : List (PyCounter (List Char) × Nat)
deriving DecidableEq

/-- State at loop entry: `pos = old_pos = start`, empty counter, empty
partial file, nothing sent (lines 29, 35–36). -/
def workerInit (P : WorkerParams) : WState :=
  ⟨byte_start P, byte_start P, [], [], []⟩

/-- The lines of one iteration after the leading-fragment drop:
`lines = unprepared_file.readlines(max(ARGS.block_size, end - pos))` followed
by `if index > 0 and pos == start: lines = lines[1:]` (lines 40–42). -/
def blockLines (P : WorkerParams) (s : WState) : List (List Char) :=
  let lines0 := (readlinesHint P.file s.pos (max P.args_block_size (byte_end P - s.pos))).1
  if 0 < P.index ∧ s.pos = byte_start P then lines0.drop 1 else lines0

/-- `pos = unprepared_file.tell()` after the iteration's `readlines` (line 43). -/
def blockPos (P : WorkerParams) (s : WState) : Nat :=
  (readlinesHint P.file s.pos (max P.args_block_size (byte_end P - s.pos))).2

/-- The cleaned lines produced by one iteration (line 45). -/
def blockCleaned (P : WorkerParams) (s : WState) : List (List Char) :=
  cleanLines P.clean (blockLines P s)

/-- The local counter after counting one iteration's words (lines 47–49). -/
def blockCounter (P : WorkerParams) (s : WState) : PyCounter (List Char) :=
  countLines s.counter (blockCleaned P s)

/-- One iteration of the `while pos < end` loop (lines 38–56): read a block
of lines, drop the leading fragment on the first read of a non-first shard,
clean, count, append the cleaned lines to the partial file, then flush
`(counter, pos - old_pos)` to the queue and reset the counter if
`len(counter.keys()) > MAX_KEYS or pos >= end`. -/
def count_words_step (P : WorkerParams) (s : WState) : WState :=
  if MAX_KEYS < (blockCounter P s).length ∨ byte_end P ≤ blockPos P s then
    ⟨blockPos P s, blockPos P s, [], s.out ++ blockCleaned P s,
      s.sent ++ [(blockCounter P s, blockPos P s - s.old_pos)]⟩
  else
    ⟨blockPos P s, s.old_pos, blockCounter P s, s.out ++ blockCleaned P s, s.sent⟩

/-- Fuelled driver for the worker loop.  The Python loop runs `while pos < end`
with no other exit; `none` means the given number of iterations did not
suffice to reach `pos ≥ end`. -/
def count_words_run (P : WorkerParams) (fuel : Nat) (s : WState) : Option WState :=
  if s.pos < byte_end P then
    match fuel with
    | 0 => none
    | fuel + 1 => count_words_run P fuel (count_words_step P s)
  else some s

/-! ### Orchestrator (`main`, lines 113–134) and error handling -/

/-- Result of one worker OS process as the orchestrator could observe it. -/
inductive ProcOutcome where
  | ok : ProcOutcome
  | failed : List Char → ProcOutcome
deriving DecidableEq

/-- Outcome of the preparation phase at the orchestrator level. -/
inductive PipelineResult where
  | ok : PipelineResult
  | fatalError : PipelineResult
  | cancelled : PipelineResult
deriving DecidableEq

/-- The `try/except Exception` around the loop body (lines 38, 57–58): a
successful iteration yields the new state; any exception is logged via
`announce` and the loop continues with the state unchanged. -/
def loopIterCaught (s : WState) (r : Except (List Char) WState) : WState :=
  match r with
  | Except.ok s' => s'
  | Except.error _ => s

/-- Modelled from the spec: `maybe_join` (from the `utils` module, which is
not part of this repository's sources) concatenates the per-shard partial
files in shard-index order into the prepared corpus file. -/
def maybe_join (parts : List (List (List Char))) : List (List Char) :=
  parts.flatten

/-- The orchestration of the preparation phase (`main`, lines 119–134):
start and join every worker — without ever inspecting a worker's exit
status — put the stop token, join the aggregator, and concatenate the
partial files; only a `KeyboardInterrupt` diverts to termination.  The
worker results are a parameter precisely to express that the code ignores
them. -/
def mainPrepare (interrupted : Bool) (workerResults : List ProcOutcome)
    (parts : List (List (List Char))) : PipelineResult × List (List Char) :=
  if interrupted then (PipelineResult.cancelled, [])
  else (PipelineResult.ok, maybe_join parts)

example : readLine ['a', 'b', '\n', 'c'] 0 = (['a', 'b', '\n'], 3) := by decide

example : readLine ['a', 'b', '\n', 'c'] 3 = (['c'], 4) := by decide

example : splitWords [' ', 'a', 'b', ' ', ' ', 'c'] = [['a', 'b'], ['c']] := by decide

example :
    readlinesHint ['a', '\n', 'b', '\n', 'c', '\n'] 0 100
      = ([['a', '\n'], ['b', '\n'], ['c', '\n']], 6) := by decide

example : readlinesHint ['a', '\n', 'b', '\n', 'c', '\n'] 0 2 = ([['a', '\n']], 2) := by
  decide

/-! ### Concrete runs used to settle the boundary and termination claims -/

/-- A minimal concrete normalizer: one cleaned line per raw line, with the
newline stripped (the shape every `LanguageBase.clean` output has). -/
def cleanEx (l : List Char) : List (List Char) := [l.filter (fun c => c != '\n')]

/-- The input file `"a\nb\nc\n"` (6 bytes, three one-word lines). -/
def fileEx : List Char := ['a', '\n', 'b', '\n', 'c', '\n']

/-- Worker parameters over `fileEx`. -/
def exParams (workers index block : Nat) : WorkerParams :=
  ⟨fileEx, index, workers, block, cleanEx⟩

/-- Run one worker over `fileEx` (4 iterations are ample for a 6-byte file). -/
def exRun (workers index block : Nat) : Option WState :=
  count_words_run (exParams workers index block) 4 (workerInit (exParams workers index block))

/-- The summed word counts a worker sent on the queue. -/
def exSent (workers index block : Nat) : PyCounter (List Char) :=
  foldTotals ((((exRun workers index block).map WState.sent).getD []).map Prod.fst)

/-- The cleaned lines a worker wrote to its partial file. -/
def exOut (workers index block : Nat) : List (List Char) :=
  (((exRun workers index block).map WState.out).getD [])

/-- The 5-byte file `"ab\ncd"`: its size is not divisible by 2 workers. -/
def fileOdd : List Char := ['a', 'b', '\n', 'c', 'd']

/-- Shard 1 of 2 over `fileOdd`: `start = 3`, `end = 6 > 5 = len(file)`. -/
def oddParams : WorkerParams := ⟨fileOdd, 1, 2, 100, cleanEx⟩

/-- The state shard 1 of `fileOdd` reaches after one iteration and then
never leaves: `pos = 5` (end of file) with `byte_end oddParams = 6`. -/
def stuckState : WState := ⟨5, 3, [], [], []⟩

/-- C1: refuted on the code.  On `"a\nb\nc\n"` with 2 workers and the default
large `ARGS.block_size`, worker 0's `readlines(max(block_size, end - pos))`
call reads the whole file, so it counts the line `"c"` of shard 1; worker 1
seeks to byte 3, discards only its leading fragment `"\n"`, and counts `"c"`
again: the straddling region is counted twice (a single-worker run counts
`"c"` once). -/
theorem no_double_count_refuted :
    cget (counter_iadd (exSent 2 0 100) (exSent 2 1 100)) ['c'] = 2 ∧
      cget (exSent 1 0 100) ['c'] = 1 := by
  decide

/-- C2: refuted on the code.  `end = start + block_size` is never clamped to
the file size, so on the 5-byte file `"ab\ncd"` with 2 workers, shard 1 has
`byte_start = 3`, `byte_end = 6`: after reading `"cd"` its position stays at
5 < 6, every further `readlines` returns nothing, and the `while pos < end`
loop never exits — no number of iterations reaches the loop's exit
condition. -/
theorem count_words_loop_nonterminating :
    ∀ fuel, count_words_run oddParams fuel (workerInit oddParams) = none := by
  have hstep0 : count_words_step oddParams (workerInit oddParams) = stuckState := by decide
  have hstep1 : count_words_step oddParams stuckState = stuckState := by decide
  have hstuck : ∀ n, count_words_run oddParams n stuckState = none := by
    intro n
    induction n with
    | zero => decide
    | succ n ih =>
      have h5 : stuckState.pos < byte_end oddParams := by decide
      calc count_words_run oddParams (n + 1) stuckState
          = count_words_run oddParams n (count_words_step oddParams stuckState) := by
            rw [count_words_run, if_pos h5]
        _ = none := by rw [hstep1]; exact ih
  intro fuel
  match fuel with
  | 0 => decide
  | fuel + 1 =>
    have h3 : (workerInit oddParams).pos < byte_end oddParams := by decide
    calc count_words_run oddParams (fuel + 1) (workerInit oddParams)
        = count_words_run oddParams fuel (count_words_step oddParams (workerInit oddParams)) := by
          rw [count_words_run, if_pos h3]
      _ = none := by rw [hstep0]; exact hstuck fuel

/-- C3: refuted on the code.  `Counter(overall_counter.most_common(n))`
(line 75) passes a *list of pairs* to the `Counter` constructor, which counts
the pairs as elements instead of interpreting them as a word-to-count
mapping: with `vocabulary_size = 1`, `prune_factor = 1` and a first batch
`{"a": 2, "b": 1}`, the pruned table is `{("a", 2): 1}` — a single tuple key
with count 1 — not the claimed top entry `{"a": 2}`. -/
theorem prune_creates_tuple_keys :
    aggregate_counters_step 1 1 [] [(PyKey.str ['a'], 2), (PyKey.str ['b'], 1)]
        = [(PyKey.pair (PyKey.str ['a']) 2, 1)] ∧
      cget (aggregate_counters_step 1 1 [] [(PyKey.str ['a'], 2), (PyKey.str ['b'], 1)])
          (PyKey.str ['a']) = 0 := by
  decide

/-- C4: refuted on the code.  On `"a\nb\nc\n"` with the default block size,
the concatenation of the two shards' cleaned outputs is `a, b, c, c` — the
straddling line `"c"` appears in both partial files — whereas the sequential
run with one worker produces `a, b, c`. -/
theorem shard_invariance_refuted :
    exOut 2 0 100 ++ exOut 2 1 100 = [['a'], ['b'], ['c'], ['c']] ∧
      exOut 1 0 100 = [['a'], ['b'], ['c']] ∧
      exOut 2 0 100 ++ exOut 2 1 100 ≠ exOut 1 0 100 := by
  decide

/-- C7: refuted on the code.  Line 40 computes the `readlines` size hint as
`max(ARGS.block_size, end - pos)`, not `min`: with `ARGS.block_size = 2` on
the 6-byte single-shard file the first read consumes all 6 bytes (> 2), and
with `ARGS.block_size = 100` on shard `[0, 3)` the first read likewise
consumes 6 bytes, exceeding the remaining shard range `end - pos = 3`. -/
theorem read_block_bound_refuted :
    (count_words_step (exParams 1 0 2) (workerInit (exParams 1 0 2))).pos = 6 ∧
      (exParams 1 0 2).args_block_size = 2 ∧
      (count_words_step (exParams 2 0 100) (workerInit (exParams 2 0 100))).pos = 6 ∧
      byte_end (exParams 2 0 100) = 3 := by
  decide

/-- C6 counterexample: an I/O error raised inside a worker's loop body is
absorbed by the `except Exception` handler (the state, hence the loop,
continues unchanged), and the orchestrator, which never inspects worker exit
status, reports success and merges even when a worker process failed. -/
theorem worker_failure_swallowed_cex :
    loopIterCaught stuckState (Except.error ['I', 'O']) = stuckState ∧
      (mainPrepare false [ProcOutcome.failed ['I', 'O']] [[]]).1 = PipelineResult.ok := by
  decide

/-- C6 (amended): every exception raised during a worker's per-block
processing — fatal I/O errors included — is caught by the blanket
`except Exception` (lines 57–58), logged, and the loop continues with the
state unchanged; the orchestrator (lines 119–129) joins the workers without
examining any worker's status and always proceeds to send the stop token and
merge the partial files, reporting success regardless of worker failures;
only a `KeyboardInterrupt` aborts the pipeline. -/
theorem worker_errors_logged_not_surfaced :
    (∀ (s : WState) (e : List Char), loopIterCaught s (Except.error e) = s) ∧
      (∀ (rs : List ProcOutcome) (ps : List (List (List Char))),
        (mainPrepare false rs ps).1 = PipelineResult.ok) ∧
      (∀ (rs : List ProcOutcome) (ps : List (List (List Char))),
        (mainPrepare true rs ps).1 = PipelineResult.cancelled) :=
  ⟨fun _ _ => rfl, fun _ _ => rfl, fun _ _ => rfl⟩

/-- `shard_block_size` of an empty file is 0 for any worker count, so every
worker's byte range is empty. -/
theorem shard_block_size_zero (w : Nat) : shard_block_size 0 w = 0 := by
  match w with
  | 0 => rfl
  | w + 1 =>
    show (0 + (w + 1) - 1) / (w + 1) = 0
    simp [Nat.div_eq_of_lt (Nat.lt_succ_of_le (Nat.le_refl w))]

/-- C10: a worker whose byte range is empty (`byte_start ≥ byte_end`) exits
its loop immediately — no matter the iteration budget — so it sends no
partial count at all and its partial file content is empty; and on an empty
input file every worker's range is empty. -/
theorem empty_shard_no_send (P : WorkerParams) (h : byte_end P ≤ byte_start P) :
    (∀ fuel, count_words_run P fuel (workerInit P) = some (workerInit P)) ∧
      (workerInit P).sent = [] ∧ (workerInit P).out = [] ∧
      (∀ Q : WorkerParams, Q.file = [] → byte_end Q ≤ byte_start Q) := by
  have hQ : ∀ Q : WorkerParams, Q.file = [] → byte_end Q ≤ byte_start Q := by
    intro Q hf
    show byte_start Q + shard_block_size Q.file.length Q.workers ≤ byte_start Q
    rw [hf]
    simp [shard_block_size_zero]
  refine ⟨fun fuel => ?_, rfl, rfl, hQ⟩
  have hpos : ¬ (workerInit P).pos < byte_end P := by
    show ¬ byte_start P < byte_end P
    exact Nat.not_lt.mpr h
  match fuel with
  | 0 => rw [count_words_run, if_neg hpos]
  | fuel + 1 => rw [count_words_run, if_neg hpos]

/-- Concrete empty-file worker used to witness C10. -/
def emptyFileParams : WorkerParams := ⟨[], 2, 3, 100, cleanEx⟩

/-- C10 witness: worker 2 of 3 on the empty file. -/
theorem empty_shard_no_send_witness :
    count_words_run emptyFileParams 7 (workerInit emptyFileParams)
        = some (workerInit emptyFileParams) ∧
      (workerInit emptyFileParams).sent = [] ∧ (workerInit emptyFileParams).out = [] := by
  have h := empty_shard_no_send emptyFileParams (by decide)
  exact ⟨h.1 7, h.2.1, h.2.2.1⟩

/-! ### Counter lemmas -/

theorem counter_incr_length {K : Type} [DecidableEq K] (c : PyCounter K) (k : K) :
    (counter_incr c k).length ≤ c.length + 1 := by
  induction c with
  | nil => exact Nat.le_refl 1
  | cons e rest ih =>
    by_cases h : e.1 = k
    · simp [counter_incr, h]
    · simpa [counter_incr, h, Nat.succ_le_succ_iff] using ih

theorem foldl_counter_incr_length {K : Type} [DecidableEq K] (ws : List K) :
    ∀ c : PyCounter K, (ws.foldl counter_incr c).length ≤ c.length + ws.length := by
  induction ws with
  | nil => intro c; exact Nat.le_refl _
  | cons w ws ih =>
    intro c
    calc ((w :: ws).foldl counter_incr c).length
        = (ws.foldl counter_incr (counter_incr c w)).length := rfl
      _ ≤ (counter_incr c w).length + ws.length := ih _
      _ ≤ (c.length + 1) + ws.length := Nat.add_le_add_right (counter_incr_length c w) _
      _ = c.length + (w :: ws).length := by
          simp [List.length_cons, Nat.add_assoc, Nat.add_comm 1]

/-- The number of word tokens in a list of cleaned lines. -/
def wordCount (lines : List (List Char)) : Nat :=
  (lines.map fun l => (splitWords l).length).sum

theorem countLines_length (lines : List (List Char)) :
    ∀ c : PyCounter (List Char), (countLines c lines).length ≤ c.length + wordCount lines := by
  induction lines with
  | nil => intro c; exact Nat.le_refl _
  | cons l ls ih =>
    intro c
    calc (countLines c (l :: ls)).length
        = (countLines (countLine c l) ls).length := rfl
      _ ≤ (countLine c l).length + wordCount ls := ih _
      _ ≤ (c.length + (splitWords l).length) + wordCount ls :=
          Nat.add_le_add_right (foldl_counter_incr_length _ c) _
      _ = c.length + wordCount (l :: ls) := by
          simp [wordCount, Nat.add_assoc]

theorem cget_of_not_hasKey {K : Type} [DecidableEq K] {c : PyCounter K} {k : K}
    (h : hasKey c k = false) : cget c k = 0 := by
  induction c with
  | nil => rfl
  | cons e rest ih =>
    rw [hasKey, Bool.or_eq_false_iff, decide_eq_false_iff_not] at h
    rw [cget, if_neg h.1]
    exact ih h.2

theorem hasKey_iff_mem_keys {K : Type} [DecidableEq K] (c : PyCounter K) (k : K) :
    hasKey c k = true ↔ k ∈ c.map Prod.fst := by
  induction c with
  | nil => simp [hasKey]
  | cons e rest ih =>
    rw [hasKey, Bool.or_eq_true_iff, decide_eq_true_eq]
    simp only [List.map_cons, List.mem_cons, ih]
    constructor
    · rintro (h | h)
      · exact Or.inl h.symm
      · exact Or.inr h
    · rintro (h | h)
      · exact Or.inl h.symm
      · exact Or.inr h

theorem filter_pos_of_entriesPos {K : Type} {l : PyCounter K} (h : entriesPos l) :
    l.filter (fun e => decide (0 < e.2)) = l := by
  rw [List.filter_eq_self]
  intro e he
  exact decide_eq_true_eq.mpr (h e he)

theorem entriesPos_filter_pos {K : Type} (l : PyCounter K) :
    entriesPos (l.filter fun e => decide (0 < e.2)) := by
  intro e he
  exact decide_eq_true_eq.mp (List.mem_filter.mp he).2

theorem entriesPos_counter_iadd {K : Type} [DecidableEq K] (c d : PyCounter K) :
    entriesPos (counter_iadd c d) :=
  entriesPos_filter_pos _

theorem cget_append {K : Type} [DecidableEq K] (l1 l2 : PyCounter K) (k : K) :
    cget (l1 ++ l2) k = if hasKey l1 k then cget l1 k else cget l2 k := by
  induction l1 with
  | nil => simp [hasKey]
  | cons e rest ih =>
    by_cases h : e.1 = k
    · simp [cget, hasKey, h]
    · rw [List.cons_append, cget, if_neg h, ih, hasKey, decide_eq_false h, Bool.false_or]
      by_cases hr : hasKey rest k = true
      · rw [if_pos hr, if_pos hr, cget, if_neg h]
      · rw [if_neg hr, if_neg hr]

theorem hasKey_map_iadd {K : Type} [DecidableEq K] (c d : PyCounter K) (k : K) :
    hasKey (c.map fun e => (e.1, e.2 + cget d e.1)) k = hasKey c k := by
  induction c with
  | nil => rfl
  | cons e rest ih => simp [hasKey, ih]

theorem cget_map_iadd {K : Type} [DecidableEq K] (c d : PyCounter K) (k : K)
    (h : hasKey c k = true) :
    cget (c.map fun e => (e.1, e.2 + cget d e.1)) k = cget c k + cget d k := by
  induction c with
  | nil => simp [hasKey] at h
  | cons e rest ih =>
    by_cases he : e.1 = k
    · subst he
      simp [cget]
    · rw [hasKey, Bool.or_eq_true_iff, decide_eq_true_eq] at h
      rcases h with h | h
      · exact absurd h he
      · simp only [List.map_cons, cget, if_neg he]
        exact ih h

theorem cget_filter_not_hasKey {K : Type} [DecidableEq K] (c d : PyCounter K) (k : K)
    (h : hasKey c k = false) :
    cget (d.filter fun e => ! hasKey c e.1) k = cget d k := by
  induction d with
  | nil => rfl
  | cons e rest ih =>
    rw [List.filter_cons]
    by_cases hk : (! hasKey c e.1) = true
    · rw [if_pos hk]
      by_cases he : e.1 = k
      · rw [cget, if_pos he, cget, if_pos he]
      · rw [cget, if_neg he, cget, if_neg he, ih]
    · rw [if_neg hk]
      have he : ¬ e.1 = k := by
        intro hek
        rw [hek, h] at hk
        exact hk rfl
      rw [cget, if_neg he, ih]

/-- `Counter.__iadd__` adds pointwise: the merged table's count for any key
is the sum of the two tables' counts (for tables with positive entries, as
all tables in the pipeline are). -/
theorem cget_counter_iadd {K : Type} [DecidableEq K] {c d : PyCounter K}
    (hc : entriesPos c) (hd : entriesPos d) (k : K) :
    cget (counter_iadd c d) k = cget c k + cget d k := by
  have hpos : entriesPos
      ((c.map fun e => (e.1, e.2 + cget d e.1)) ++ d.filter fun e => ! hasKey c e.1) := by
    intro e he
    rcases List.mem_append.mp he with h | h
    · rcases List.mem_map.mp h with ⟨e0, he0, rfl⟩
      exact Nat.lt_of_lt_of_le (hc e0 he0) (Nat.le_add_right _ _)
    · exact hd e (List.mem_of_mem_filter h)
  rw [counter_iadd, filter_pos_of_entriesPos hpos, cget_append]
  by_cases h : hasKey c k
  · rw [if_pos (by rw [hasKey_map_iadd]; exact h), cget_map_iadd c d k h]
  · rw [Bool.not_eq_true] at h
    rw [if_neg (by rw [hasKey_map_iadd, h]; exact Bool.false_ne_true),
      cget_filter_not_hasKey c d k h, cget_of_not_hasKey h, Nat.zero_add]

theorem entriesPos_foldl_iadd {K : Type} [DecidableEq K] (bs : List (PyCounter K)) :
    ∀ c : PyCounter K, entriesPos c → entriesPos (bs.foldl counter_iadd c) := by
  induction bs with
  | nil => exact fun c hc => hc
  | cons b bs ih => exact fun c _ => ih _ (entriesPos_counter_iadd c b)

theorem entriesPos_foldTotals {K : Type} [DecidableEq K] (bs : List (PyCounter K)) :
    entriesPos (foldTotals bs) :=
  entriesPos_foldl_iadd bs [] (fun _ h => absurd h (List.not_mem_nil _))

theorem cget_foldl_iadd {K : Type} [DecidableEq K] (bs : List (PyCounter K)) (k : K) :
    ∀ c : PyCounter K, entriesPos c → (∀ b ∈ bs, entriesPos b) →
      cget (bs.foldl counter_iadd c) k = cget c k + (bs.map fun b => cget b k).sum := by
  induction bs with
  | nil => intro c _ _; simp
  | cons b bs ih =>
    intro c hc hbs
    have hb : entriesPos b := hbs b (List.mem_cons_self b bs)
    have hbs' : ∀ b' ∈ bs, entriesPos b' := fun b' hmem => hbs b' (List.mem_cons_of_mem _ hmem)
    rw [List.foldl_cons, ih _ (entriesPos_counter_iadd c b) hbs', cget_counter_iadd hc hb]
    simp [Nat.add_assoc]

/-- Summing batches with `+=` computes, per word, the sum of the batches'
counts. -/
theorem cget_foldTotals {K : Type} [DecidableEq K] (bs : List (PyCounter K))
    (hbs : ∀ b ∈ bs, entriesPos b) (k : K) :
    cget (foldTotals bs) k = (bs.map fun b => cget b k).sum := by
  have h := cget_foldl_iadd bs k [] (fun _ hmem => absurd hmem (List.not_mem_nil _)) hbs
  rw [foldTotals, h, show cget ([] : PyCounter K) k = 0 from rfl, Nat.zero_add]

/-- C8: an iteration of the worker loop flushes exactly when
`len(counter.keys()) > MAX_KEYS or pos >= end`: it then appends exactly one
`(counter snapshot, pos - old_pos)` batch to the queue, resets the local
counter to empty and records the flush position; otherwise it sends nothing
and keeps the counter.  Consequently the counter retained across iterations
never exceeds `MAX_KEYS` distinct words, and within an iteration it holds at
most the carried-over keys plus one block's word tokens. -/
theorem flush_policy (P : WorkerParams) (s : WState) :
    ((MAX_KEYS < (blockCounter P s).length ∨ byte_end P ≤ blockPos P s) →
      (count_words_step P s).sent
          = s.sent ++ [(blockCounter P s, blockPos P s - s.old_pos)] ∧
        (count_words_step P s).counter = [] ∧
        (count_words_step P s).old_pos = blockPos P s) ∧
      (¬ (MAX_KEYS < (blockCounter P s).length ∨ byte_end P ≤ blockPos P s) →
        (count_words_step P s).sent = s.sent ∧
          (count_words_step P s).counter = blockCounter P s ∧
          (count_words_step P s).old_pos = s.old_pos) ∧
      (count_words_step P s).counter.length ≤ MAX_KEYS ∧
      (blockCounter P s).length ≤ s.counter.length + wordCount (blockCleaned P s) := by
  by_cases h : MAX_KEYS < (blockCounter P s).length ∨ byte_end P ≤ blockPos P s
  · refine ⟨fun _ => ?_, fun hn => absurd h hn, ?_, countLines_length _ _⟩
    · rw [count_words_step, if_pos h]
      exact ⟨rfl, rfl, rfl⟩
    · rw [count_words_step, if_pos h]
      exact Nat.zero_le _
  · refine ⟨fun hy => absurd hy h, fun _ => ?_, ?_, countLines_length _ _⟩
    · rw [count_words_step, if_neg h]
      exact ⟨rfl, rfl, rfl⟩
    · rw [count_words_step, if_neg h]
      exact Nat.le_of_not_lt fun hlt => h (Or.inl hlt)

/-- C8 witness: the end-of-shard flush of worker 1 of 2 on `"a\nb\nc\n"`. -/
theorem flush_policy_witness :
    (count_words_step (exParams 2 1 100) (workerInit (exParams 2 1 100))).sent
        = (workerInit (exParams 2 1 100)).sent
            ++ [(blockCounter (exParams 2 1 100) (workerInit (exParams 2 1 100)),
                  blockPos (exParams 2 1 100) (workerInit (exParams 2 1 100))
                    - (workerInit (exParams 2 1 100)).old_pos)] ∧
      (count_words_step (exParams 2 1 100) (workerInit (exParams 2 1 100))).counter = [] ∧
      (count_words_step (exParams 2 1 100) (workerInit (exParams 2 1 100))).old_pos
        = blockPos (exParams 2 1 100) (workerInit (exParams 2 1 100)) :=
  (flush_policy (exParams 2 1 100) (workerInit (exParams 2 1 100))).1 (by decide)

/-- C9: summing `PartialCount` batches is order- and grouping-independent:
any permutation of the arriving batches yields the same per-word totals, and
merging two groups' totals equals the total of the concatenated groups — so
without pruning the aggregator's final table does not depend on channel
arrival order. -/
theorem merge_order_independent {K : Type} [DecidableEq K]
    (bs1 bs2 : List (PyCounter K)) (h1 : ∀ b ∈ bs1, entriesPos b)
    (hp : bs1.Perm bs2) :
    (∀ k, cget (foldTotals bs1) k = cget (foldTotals bs2) k) ∧
      (∀ k, cget (counter_iadd (foldTotals bs1) (foldTotals bs2)) k
        = cget (foldTotals (bs1 ++ bs2)) k) := by
  have h2 : ∀ b ∈ bs2, entriesPos b := fun b hb => h1 b (hp.mem_iff.mpr hb)
  have h12 : ∀ b ∈ bs1 ++ bs2, entriesPos b := by
    intro b hb
    rcases List.mem_append.mp hb with hb | hb
    · exact h1 b hb
    · exact h2 b hb
  constructor
  · intro k
    rw [cget_foldTotals bs1 h1 k, cget_foldTotals bs2 h2 k]
    exact (hp.map fun b => cget b k).sum_eq
  · intro k
    rw [cget_counter_iadd (entriesPos_foldTotals bs1) (entriesPos_foldTotals bs2) k,
      cget_foldTotals bs1 h1 k, cget_foldTotals bs2 h2 k, cget_foldTotals _ h12 k,
      List.map_append, List.sum_append]

theorem keys_map_iadd {K : Type} [DecidableEq K] (c d : PyCounter K) :
    (c.map fun e => (e.1, e.2 + cget d e.1)).map Prod.fst = c.map Prod.fst := by
  induction c with
  | nil => rfl
  | cons e rest ih => simp [ih]

theorem NoDupKeys_counter_iadd {K : Type} [DecidableEq K] {c d : PyCounter K}
    (hc : NoDupKeys c) (hd : NoDupKeys d) : NoDupKeys (counter_iadd c d) := by
  rw [NoDupKeys, counter_iadd]
  refine List.Nodup.sublist ((List.filter_sublist _).map Prod.fst) ?_
  rw [List.map_append, List.nodup_append]
  refine ⟨?_, ?_, ?_⟩
  · rw [keys_map_iadd]
    exact hc
  · exact List.Nodup.sublist ((List.filter_sublist _).map Prod.fst) hd
  · intro x hx1 hx2
    rw [keys_map_iadd] at hx1
    have h1 : hasKey c x = true := (hasKey_iff_mem_keys c x).mpr hx1
    rcases List.mem_map.mp hx2 with ⟨e, he, rfl⟩
    have h2 := (List.mem_filter.mp he).2
    rw [h1] at h2
    exact absurd h2 (by decide)

theorem NoDupKeys_foldl_iadd {K : Type} [DecidableEq K] (bs : List (PyCounter K)) :
    ∀ c : PyCounter K, NoDupKeys c → (∀ b ∈ bs, NoDupKeys b) →
      NoDupKeys (bs.foldl counter_iadd c) := by
  induction bs with
  | nil => exact fun c hc _ => hc
  | cons b bs ih =>
    intro c hc hbs
    exact ih _ (NoDupKeys_counter_iadd hc (hbs b (List.mem_cons_self b bs)))
      fun b' hb => hbs b' (List.mem_cons_of_mem _ hb)

theorem NoDupKeys_foldTotals {K : Type} [DecidableEq K] (bs : List (PyCounter K))
    (hbs : ∀ b ∈ bs, NoDupKeys b) : NoDupKeys (foldTotals bs) :=
  NoDupKeys_foldl_iadd bs [] List.nodup_nil hbs

/-- In a duplicate-free counter, looking up the key of a stored entry
returns that entry's count. -/
theorem cget_of_mem_nodup {K : Type} [DecidableEq K] {c : PyCounter K}
    (hc : NoDupKeys c) {e : K × Nat} (he : e ∈ c) : cget c e.1 = e.2 := by
  induction c with
  | nil => exact absurd he (List.not_mem_nil e)
  | cons e0 rest ih =>
    rw [NoDupKeys, List.map_cons, List.nodup_cons] at hc
    rcases List.mem_cons.mp he with rfl | hmem
    · rw [cget, if_pos rfl]
    · have hne : ¬ e0.1 = e.1 := by
        intro hq
        exact hc.1 (hq ▸ List.mem_map_of_mem Prod.fst hmem)
      rw [cget, if_neg hne]
      exact ih hc.2 hmem

theorem cget_pos_of_hasKey {K : Type} [DecidableEq K] {c : PyCounter K}
    (hc : entriesPos c) {k : K} (h : hasKey c k = true) : 0 < cget c k := by
  induction c with
  | nil => simp [hasKey] at h
  | cons e rest ih =>
    by_cases he : e.1 = k
    · rw [cget, if_pos he]
      exact hc e (List.mem_cons_self e rest)
    · rw [cget, if_neg he]
      rw [hasKey, Bool.or_eq_true_iff, decide_eq_true_eq] at h
      rcases h with h | h
      · exact absurd h he
      · exact ih (fun e' he' => hc e' (List.mem_cons_of_mem _ he')) h

theorem cget_pos_iff_mem_keys {K : Type} [DecidableEq K] {c : PyCounter K}
    (hc : entriesPos c) (k : K) : 0 < cget c k ↔ k ∈ c.map Prod.fst := by
  rw [← hasKey_iff_mem_keys]
  constructor
  · intro h
    by_cases hk : hasKey c k = true
    · exact hk
    · rw [Bool.not_eq_true] at hk
      rw [cget_of_not_hasKey hk] at h
      exact absurd h (Nat.lt_irrefl 0)
  · exact cget_pos_of_hasKey hc

theorem sum_take_le (l : List Nat) (n : Nat) : (l.take n).sum ≤ l.sum := by
  conv_rhs => rw [← List.take_append_drop n l]
  rw [List.sum_append]
  exact Nat.le_add_right _ _

/-- A word's total over a prefix of the batches never exceeds its total over
all batches. -/
theorem cget_foldTotals_take_le {K : Type} [DecidableEq K] (bs : List (PyCounter K))
    (hbs : ∀ b ∈ bs, entriesPos b) (n : Nat) (k : K) :
    cget (foldTotals (bs.take n)) k ≤ cget (foldTotals bs) k := by
  have hbs' : ∀ b ∈ bs.take n, entriesPos b :=
    fun b hb => hbs b ((List.take_sublist n bs).subset hb)
  rw [cget_foldTotals _ hbs' k, cget_foldTotals _ hbs k, List.map_take]
  exact sum_take_le _ n

/-- The table built from a prefix of the batches has no more distinct keys
than the table built from all batches. -/
theorem length_foldTotals_take_le {K : Type} [DecidableEq K] (bs : List (PyCounter K))
    (hpos : ∀ b ∈ bs, entriesPos b) (hnod : ∀ b ∈ bs, NoDupKeys b) (n : Nat) :
    (foldTotals (bs.take n)).length ≤ (foldTotals bs).length := by
  have hnod' : ∀ b ∈ bs.take n, NoDupKeys b :=
    fun b hb => hnod b ((List.take_sublist n bs).subset hb)
  have hsub : (foldTotals (bs.take n)).map Prod.fst ⊆ (foldTotals bs).map Prod.fst := by
    intro x hx
    have h1 : 0 < cget (foldTotals (bs.take n)) x :=
      (cget_pos_iff_mem_keys (entriesPos_foldTotals _) x).mpr hx
    have h2 : 0 < cget (foldTotals bs) x :=
      Nat.lt_of_lt_of_le h1 (cget_foldTotals_take_le bs hpos n x)
    exact (cget_pos_iff_mem_keys (entriesPos_foldTotals _) x).mp h2
  have hlen := ((NoDupKeys_foldTotals _ hnod').subperm hsub).length_le
  simpa using hlen

/-- If the total table stays within the prune threshold, the prune branch
never fires and the aggregator computes the plain sum of all batches. -/
theorem aggregate_counters_no_prune (v p : Nat) (bs : List (PyCounter PyKey))
    (hpos : ∀ b ∈ bs, entriesPos b) (hnod : ∀ b ∈ bs, NoDupKeys b)
    (hth : (foldTotals bs).length ≤ p * v) :
    aggregate_counters_run v p bs = foldTotals bs := by
  induction bs using List.reverseRecOn with
  | nil => rfl
  | append_singleton bs b ih =>
    have hpos' : ∀ b' ∈ bs, entriesPos b' :=
      fun b' hb => hpos b' (List.mem_append_left _ hb)
    have hnod' : ∀ b' ∈ bs, NoDupKeys b' :=
      fun b' hb => hnod b' (List.mem_append_left _ hb)
    have hφ : foldTotals (bs ++ [b]) = counter_iadd (foldTotals bs) b := by
      rw [foldTotals, foldTotals, List.foldl_append, List.foldl_cons, List.foldl_nil]
    have hth' : (foldTotals bs).length ≤ p * v := by
      have h0 := length_foldTotals_take_le (bs ++ [b]) hpos hnod bs.length
      rw [List.take_left] at h0
      exact Nat.le_trans h0 hth
    have hrun : aggregate_counters_run v p (bs ++ [b])
        = aggregate_counters_step v p (aggregate_counters_run v p bs) b := by
      rw [aggregate_counters_run, aggregate_counters_run, List.foldl_append,
        List.foldl_cons, List.foldl_nil]
    rw [hrun, ih hpos' hnod' hth']
    show (if p * v < (counter_iadd (foldTotals bs) b).length then _ else
      counter_iadd (foldTotals bs) b) = _
    rw [if_neg (Nat.not_lt.mpr (hφ ▸ hth)), hφ]

/-- C5: when the corpus's distinct words fit under
`prune_factor * vocabulary_size`, the aggregator's final table is the exact
per-word sum of all batches, and the vocabulary written is the exact top
`vocabulary_size` words: one line per selected entry (`min v` distinct words
lines), counts weakly descending, keys pairwise distinct, each written entry
carrying the word's exact corpus frequency, and every unselected word's
frequency is at most that of every selected one (ties resolved
implementation-defined by the stable sort). -/
theorem vocabulary_exact_under_threshold (v p : Nat) (bs : List (PyCounter PyKey))
    (hpos : ∀ b ∈ bs, entriesPos b) (hnod : ∀ b ∈ bs, NoDupKeys b)
    (hth : (foldTotals bs).length ≤ p * v) :
    aggregate_counters_run v p bs = foldTotals bs ∧
      vocabulary_lines v p bs = (most_common (foldTotals bs) v).map (fun e => pyStr e.1) ∧
      (most_common (foldTotals bs) v).length = min v (foldTotals bs).length ∧
      List.Sorted (fun a b => b ≤ a) ((most_common (foldTotals bs) v).map Prod.snd) ∧
      NoDupKeys (most_common (foldTotals bs) v) ∧
      (∀ e ∈ most_common (foldTotals bs) v, cget (foldTotals bs) e.1 = e.2) ∧
      (∀ e ∈ most_common (foldTotals bs) v, ∀ e2 ∈ foldTotals bs,
        e2.1 ∉ (most_common (foldTotals bs) v).map Prod.fst → e2.2 ≤ e.2) := by
  have hrun := aggregate_counters_no_prune v p bs hpos hnod hth
  have hperm : List.Perm (List.insertionSort countGE (foldTotals bs)) (foldTotals bs) :=
    List.perm_insertionSort countGE (foldTotals bs)
  have hsorted : List.Sorted countGE (List.insertionSort countGE (foldTotals bs)) :=
    List.sorted_insertionSort countGE (foldTotals bs)
  refine ⟨hrun, ?_, ?_, ?_, ?_, ?_, ?_⟩
  · rw [vocabulary_lines, hrun]
  · rw [most_common, List.length_take, List.length_insertionSort]
  · rw [most_common]
    exact ((hsorted.sublist (List.take_sublist v _)).map Prod.snd) fun a b h => h
  · rw [NoDupKeys, most_common, List.map_take]
    refine List.Nodup.sublist (List.take_sublist v _) ?_
    exact (hperm.map Prod.fst).nodup_iff.mpr (NoDupKeys_foldTotals bs hnod)
  · intro e he
    have he' : e ∈ foldTotals bs :=
      hperm.subset ((List.take_sublist v _).subset he)
    exact cget_of_mem_nodup (NoDupKeys_foldTotals bs hnod) he'
  · intro e he e2 he2 hkey
    have he2' : e2 ∈ List.insertionSort countGE (foldTotals bs) := hperm.mem_iff.mpr he2
    rw [← List.take_append_drop v (List.insertionSort countGE (foldTotals bs))] at he2'
    rcases List.mem_append.mp he2' with h2 | h2
    · exact absurd (List.mem_map_of_mem Prod.fst h2) (by rw [most_common] at hkey; exact hkey)
    · exact hsorted.rel_of_mem_take_of_mem_drop (by rw [most_common] at he; exact he) h2

/-- Concrete batches used to witness C5. -/
def bsEx : List (PyCounter PyKey) :=
  [[(PyKey.str ['a'], 2)], [(PyKey.str ['b'], 1), (PyKey.str ['a'], 1)]]

/-- C5 witness: two positive, duplicate-free batches whose union has 2
distinct words with `prune_factor = 1`, `vocabulary_size = 2`. -/
theorem vocabulary_exact_under_threshold_witness :
    aggregate_counters_run 2 1 bsEx = foldTotals bsEx ∧
      (most_common (foldTotals bsEx) 2).length = min 2 (foldTotals bsEx).length := by
  have h := vocabulary_exact_under_threshold 2 1 bsEx (by decide) (by decide) (by decide)
  exact ⟨h.1, h.2.2.1⟩

/-- C9 witness: two concrete batch lists that are permutations of one
another, evaluated at the word `"a"`. -/
theorem merge_order_independent_witness :
    cget (foldTotals [[(['a'], 2)], [(['b'], 1), (['a'], 1)]]) ['a']
        = cget (foldTotals [[(['b'], 1), (['a'], 1)], [(['a'], 2)]]) ['a'] ∧
      cget (counter_iadd (foldTotals [[(['a'], 2)], [(['b'], 1), (['a'], 1)]])
            (foldTotals [[(['b'], 1), (['a'], 1)], [(['a'], 2)]])) ['a']
        = cget (foldTotals ([[(['a'], 2)], [(['b'], 1), (['a'], 1)]]
            ++ [[(['b'], 1), (['a'], 1)], [(['a'], 2)]])) ['a'] := by
  have h := merge_order_independent [[(['a'], 2)], [(['b'], 1), (['a'], 1)]]
    [[(['b'], 1), (['a'], 1)], [(['a'], 2)]] (by decide) (by decide)
  exact ⟨h.1 ['a'], h.2 ['a']⟩
